import Mathlib

/-!
Verification of src/sprite-decoder.js (Pokémon Red sprite RLE codec).

The JavaScript source is shallowly embedded here:
* JS numbers holding small integers are modelled as `Int` (all values
  reached by the claims are far below 2^53, where doubles are exact);
* `n.toString(2)` is modelled by `jsBinI` producing a `List Char`
  (a leading '-' for negative numbers, binary digits, no leading zeros);
* the 32-bit JS operators `<<` and `|` are modelled by `jsShl` and `jsOr`
  via explicit reduction modulo 2^32 (`toUint32` / `toInt32`);
* `parseInt(s, 2)` is modelled by `parseIntBin` (optional sign, then
  binary digits — every string the decoder builds is of that shape).
-/

/-- The character of the least-significant binary digit of `n`. -/
def bitChar (n : Nat) : Char := if n % 2 = 1 then '1' else '0'

/-- Least-significant-first binary digits of `n`, with explicit fuel
(`n` itself is always enough fuel, and any sufficient fuel agrees). -/
def bitsLE : Nat → Nat → List Char
  | 0, _ => []
  | f + 1, n => if n = 0 then [] else bitChar n :: bitsLE f (n / 2)

/-- Least-significant-first binary digits of `n` (empty for `n = 0`). -/
def natBits (n : Nat) : List Char := bitsLE n n

/-- JS `n.toString(2)` for a non-negative number: most-significant-first
binary digits, no leading zeros, and "0" for zero. -/
def jsBin (n : Nat) : List Char := if n = 0 then ['0'] else (natBits n).reverse

/-- JS `n.toString(2)` for any integer: negative numbers print as a '-'
followed by the digits of the absolute value. -/
def jsBinI (i : Int) : List Char := if i < 0 then '-' :: jsBin (-i).toNat else jsBin i.toNat

/-- Least-significant-first binary digits of `v`, zero-padded to exactly `k` digits. -/
def padLE : Nat → Nat → List Char
  | 0, _ => []
  | k + 1, v => bitChar v :: padLE k (v / 2)

/-- Most-significant-first binary digits of `v`, zero-padded to exactly `k` digits. -/
def padBE (k v : Nat) : List Char := (padLE k v).reverse

/-- JS `ToUint32`: the value reduced into `[0, 2^32)`. -/
def toUint32 (x : Int) : Nat := (x % (2 ^ 32 : Int)).toNat

/-- JS `ToInt32`: the value reduced into `[-2^31, 2^31)`. -/
def toInt32 (x : Int) : Int :=
  if toUint32 x < 2 ^ 31 then (toUint32 x : Int) else (toUint32 x : Int) - 2 ^ 32

/-- JS `a << b`: 32-bit left shift (shift count taken modulo 32). -/
def jsShl (a b : Int) : Int := toInt32 (toInt32 a * 2 ^ (toUint32 b % 32))

/-- JS `a | b`: 32-bit bitwise or. -/
def jsOr (a b : Int) : Int := toInt32 ((toUint32 a ||| toUint32 b : Nat) : Int)

/-- `rle_encode` from src/sprite-decoder.js:
`n = n + 1; v = n - 2^(bitlen n - 1); l = n - v - 2;`
`return (l << bitlen l) | v`. -/
def rle_encode (n : Int) : Int :=
  let n1 := n + 1
  let v := n1 - 2 ^ ((jsBinI n1).length - 1)
  let l := n1 - v - 2
  jsOr (jsShl l ((jsBinI l).length : Int)) v

/-- The first loop of `rle_decode`: append characters of the string until
a character that compares `== 0` (i.e. the digit '0') has been appended. -/
def takeUntilZero : List Char → List Char
  | [] => []
  | c :: cs => if c = '0' then ['0'] else c :: takeUntilZero cs

/-- Numeric value of a most-significant-first binary digit string
(any character other than '1' counts as 0, as `parseInt` never sees one). -/
def bitsVal : List Char → Nat
  | [] => 0
  | c :: cs => (if c = '1' then 1 else 0) * 2 ^ cs.length + bitsVal cs

/-- JS `parseInt(s, 2)` on the strings `rle_decode` builds: an optional
leading '-', then binary digits.  (`parseInt("", 2)` would be `NaN`;
the decoder never parses an empty string.) -/
def parseIntBin : List Char → Int
  | [] => 0
  | c :: cs => if c = '-' then -(bitsVal cs : Int) else (bitsVal (c :: cs) : Int)

/-- `rle_decode` from src/sprite-decoder.js:
stringify the input in binary, take characters up to and including the
first '0' as `l`, take the next `l.length` available characters as `n`
(defaulting to "0" when empty), and return `parseInt(l,2) + parseInt(n,2) + 1`. -/
def rle_decode (encoded : Int) : Int :=
  let strN := jsBinI encoded
  let l := takeUntilZero strN
  let nRaw := (strN.drop l.length).take l.length
  let n := if nRaw = [] then ['0'] else nRaw
  parseIntBin l + parseIntBin n + 1

/-- `decompress_bp` from src/sprite-decoder.js.  The JS function computes
`isRle`, declares an empty accumulator, runs a loop whose body is empty,
and falls off the end — i.e. it returns `undefined` (modelled as `none`)
for every input. -/
def decompress_bp (bitplane : List Char) : Option (List Char) :=
  let _isRle : Bool := bitplane.headD ' ' == '0'
  let _decompressed : List Char := []
  none

/-- Error kinds of the sprite decoder described by the spec. -/
inductive SpriteDecodeError
  | MalformedVarint
  | PlaneLengthMismatch
  | InvalidDimensions
  | CursorExhausted

/-- Modelled from the spec: the sprite-header parsing step is absent from
src/sprite-decoder.js (only the RLE codec and a stub exist there), so the
dimension read is taken from the spec's words: read one byte; top nibble =
tileHeight, bottom nibble = tileWidth, each required to lie in 1..7, with
0 or more than 7 a fatal `InvalidDimensions` error. -/
def readDimensions (b : Nat) : Except SpriteDecodeError (Nat × Nat) :=
  let tileHeight := b / 16 % 16
  let tileWidth := b % 16
  if 1 ≤ tileHeight ∧ tileHeight ≤ 7 ∧ 1 ≤ tileWidth ∧ tileWidth ≤ 7 then
    Except.ok (tileHeight, tileWidth)
  else
    Except.error SpriteDecodeError.InvalidDimensions

/-! ### Basic facts about the binary-string helpers -/

theorem bitsLE_zero (f : Nat) : bitsLE f 0 = [] := by
  cases f <;> simp [bitsLE]

theorem bitsLE_fuel {n : Nat} : ∀ {f g : Nat}, n ≤ f → n ≤ g → bitsLE f n = bitsLE g n := by
  induction n using Nat.strong_induction_on with
  | _ n ih =>
    intro f g hf hg
    rcases Nat.eq_zero_or_pos n with hn | hn
    · subst hn; rw [bitsLE_zero, bitsLE_zero]
    · have hne : n ≠ 0 := by omega
      obtain ⟨f', rfl⟩ : ∃ f', f = f' + 1 := ⟨f - 1, by omega⟩
      obtain ⟨g', rfl⟩ : ∃ g', g = g' + 1 := ⟨g - 1, by omega⟩
      have hlt : n / 2 < n := Nat.div_lt_self hn (by norm_num)
      simp only [bitsLE, if_neg hne]
      rw [ih (n / 2) hlt (show n / 2 ≤ f' by omega) (show n / 2 ≤ g' by omega)]

theorem natBits_ne_zero {n : Nat} (h : n ≠ 0) : natBits n = bitChar n :: natBits (n / 2) := by
  obtain ⟨m, rfl⟩ : ∃ m, n = m + 1 := ⟨n - 1, by omega⟩
  show bitsLE (m + 1) (m + 1) = _
  simp only [bitsLE, if_neg h]
  rw [bitsLE_fuel (f := m) (g := (m + 1) / 2) (by omega) (by omega)]
  rfl

theorem natBits_mul_pow_add {a : Nat} (ha : 1 ≤ a) :
    ∀ (k v : Nat), v < 2 ^ k → natBits (a * 2 ^ k + v) = padLE k v ++ natBits a := by
  intro k
  induction k with
  | zero =>
    intro v hv
    interval_cases v
    simp [padLE]
  | succ k ih =>
    intro v hv
    have hp : (2:Nat) ^ (k + 1) = 2 * 2 ^ k := by ring
    have h1 : (1:Nat) ≤ 2 ^ k := Nat.one_le_two_pow
    have e1 : a * 2 ^ (k + 1) + v = v + a * 2 ^ k * 2 := by ring
    have hne : v + a * 2 ^ k * 2 ≠ 0 := by
      have : 1 * 1 ≤ a * 2 ^ k := Nat.mul_le_mul ha h1
      omega
    have hd : (v + a * 2 ^ k * 2) / 2 = v / 2 + a * 2 ^ k :=
      Nat.add_mul_div_right _ _ (by norm_num)
    have hc : bitChar (v + a * 2 ^ k * 2) = bitChar v := by
      unfold bitChar
      rw [Nat.add_mul_mod_self_right]
    have hv2 : v / 2 < 2 ^ k := by omega
    rw [e1, natBits_ne_zero hne, hd, hc, Nat.add_comm (v / 2) (a * 2 ^ k), ih (v / 2) hv2]
    simp [padLE]

theorem natBits_two_pow_sub_one : ∀ j : Nat, natBits (2 ^ j - 1) = List.replicate j '1' := by
  intro j
  induction j with
  | zero => rfl
  | succ j ih =>
    have hp : (2:Nat) ^ (j + 1) = 2 * 2 ^ j := by ring
    have h1 : (1:Nat) ≤ 2 ^ j := Nat.one_le_two_pow
    have hne : 2 ^ (j + 1) - 1 ≠ 0 := by omega
    have hm : (2 ^ (j + 1) - 1) % 2 = 1 := by omega
    have hc : bitChar (2 ^ (j + 1) - 1) = '1' := by simp [bitChar, hm]
    have hd : (2 ^ (j + 1) - 1) / 2 = 2 ^ j - 1 := by omega
    rw [natBits_ne_zero hne, hc, hd, ih, List.replicate_succ]

theorem jsBin_one : jsBin 1 = ['1'] := by decide

theorem jsBin_decomp {a : Nat} (ha : 1 ≤ a) (k v : Nat) (hv : v < 2 ^ k) :
    jsBin (a * 2 ^ k + v) = jsBin a ++ padBE k v := by
  have h1 : (1:Nat) ≤ 2 ^ k := Nat.one_le_two_pow
  have hne : a * 2 ^ k + v ≠ 0 := by
    have : 1 * 1 ≤ a * 2 ^ k := Nat.mul_le_mul ha h1
    omega
  rw [jsBin, if_neg hne, natBits_mul_pow_add ha k v hv, List.reverse_append,
    jsBin, if_neg (by omega : a ≠ 0)]
  rfl

theorem jsBin_two_pow_sub_two : ∀ k : Nat, 1 ≤ k →
    jsBin (2 ^ k - 2) = List.replicate (k - 1) '1' ++ ['0']
  | 1, _ => by decide
  | k + 2, _ => by
    have hp : (2:Nat) ^ (k + 2) = 2 * 2 ^ (k + 1) := by ring
    have h1 : (1:Nat) ≤ 2 ^ (k + 1) := Nat.one_le_two_pow
    have hne : 2 ^ (k + 2) - 2 ≠ 0 := by omega
    have hm : (2 ^ (k + 2) - 2) % 2 = 0 := by omega
    have hc : bitChar (2 ^ (k + 2) - 2) = '0' := by simp [bitChar, hm]
    have hd : (2 ^ (k + 2) - 2) / 2 = 2 ^ (k + 1) - 1 := by omega
    rw [jsBin, if_neg hne, natBits_ne_zero hne, hc, hd, natBits_two_pow_sub_one,
      List.reverse_cons, List.reverse_replicate]
    rfl

theorem padLE_length : ∀ k v : Nat, (padLE k v).length = k
  | 0, _ => rfl
  | k + 1, v => by simp [padLE, padLE_length k (v / 2)]

theorem padBE_length (k v : Nat) : (padBE k v).length = k := by
  simp [padBE, padLE_length]

theorem padLE_split (k : Nat) : ∀ (j v w : Nat), w < 2 ^ j →
    padLE (k + j) (v * 2 ^ j + w) = padLE j w ++ padLE k v := by
  intro j
  induction j with
  | zero =>
    intro v w hw
    interval_cases w
    simp [padLE]
  | succ j ih =>
    intro v w hw
    have hp : (2:Nat) ^ (j + 1) = 2 * 2 ^ j := by ring
    have e1 : v * 2 ^ (j + 1) + w = w + v * 2 ^ j * 2 := by ring
    have hd : (w + v * 2 ^ j * 2) / 2 = w / 2 + v * 2 ^ j :=
      Nat.add_mul_div_right _ _ (by norm_num)
    have hc : bitChar (w + v * 2 ^ j * 2) = bitChar w := by
      unfold bitChar
      rw [Nat.add_mul_mod_self_right]
    have hw2 : w / 2 < 2 ^ j := by omega
    have e2 : k + (j + 1) = (k + j) + 1 := by omega
    rw [e1, e2, padLE, hd, hc, Nat.add_comm (w / 2) (v * 2 ^ j), ih (v) (w / 2) hw2]
    simp [padLE]

theorem padBE_split (k j v w : Nat) (hw : w < 2 ^ j) :
    padBE (k + j) (v * 2 ^ j + w) = padBE k v ++ padBE j w := by
  rw [padBE, padLE_split k j v w hw, List.reverse_append]
  rfl

/-! ### Values of binary-digit strings -/

theorem bitsVal_append (xs ys : List Char) :
    bitsVal (xs ++ ys) = bitsVal xs * 2 ^ ys.length + bitsVal ys := by
  induction xs with
  | nil => simp [bitsVal]
  | cons c cs ih =>
    simp only [List.cons_append, bitsVal, List.append_eq, ih, List.length_append, pow_add]
    ring

theorem bitsVal_replicate_one : ∀ j : Nat, bitsVal (List.replicate j '1') = 2 ^ j - 1 := by
  intro j
  induction j with
  | zero => rfl
  | succ j ih =>
    have hp : (2:Nat) ^ (j + 1) = 2 * 2 ^ j := by ring
    have h1 : (1:Nat) ≤ 2 ^ j := Nat.one_le_two_pow
    rw [List.replicate_succ, bitsVal, ih, List.length_replicate]
    simp only [if_pos]
    omega

theorem mod_two_pow_succ (v k : Nat) : v % 2 ^ (k + 1) = 2 * (v / 2 % 2 ^ k) + v % 2 := by
  have h1 : (1:Nat) ≤ 2 ^ k := Nat.one_le_two_pow
  have hp : (2:Nat) ^ (k + 1) = 2 * 2 ^ k := by ring
  have hm : v / 2 % 2 ^ k < 2 ^ k := Nat.mod_lt _ (by omega)
  have h2 : v % 2 < 2 := Nat.mod_lt _ (by norm_num)
  calc v % 2 ^ (k + 1)
      = (2 * (v / 2) + v % 2) % (2 * 2 ^ k) := by
        rw [Nat.div_add_mod v 2, hp]
    _ = ((2 * (v / 2)) % (2 * 2 ^ k) + (v % 2) % (2 * 2 ^ k)) % (2 * 2 ^ k) :=
        Nat.add_mod _ _ _
    _ = (2 * (v / 2 % 2 ^ k) + v % 2) % (2 * 2 ^ k) := by
        rw [Nat.mul_mod_mul_left, Nat.mod_eq_of_lt (show v % 2 < 2 * 2 ^ k by omega)]
    _ = 2 * (v / 2 % 2 ^ k) + v % 2 := Nat.mod_eq_of_lt (by omega)

theorem bitsVal_single_bitChar (v : Nat) : bitsVal [bitChar v] = v % 2 := by
  rcases Nat.mod_two_eq_zero_or_one v with h | h
  · rw [show bitChar v = '0' by simp [bitChar, h], h]; decide
  · rw [show bitChar v = '1' by simp [bitChar, h], h]; decide

theorem bitsVal_padBE (k : Nat) : ∀ v : Nat, bitsVal (padBE k v) = v % 2 ^ k := by
  induction k with
  | zero => intro v; simp [padBE, padLE, bitsVal, Nat.mod_one]
  | succ k ih =>
    intro v
    have hsplit : padBE (k + 1) v = padBE k (v / 2) ++ [bitChar v] := by
      rw [padBE, padLE, List.reverse_cons]
      rfl
    rw [hsplit, bitsVal_append, ih, bitsVal_single_bitChar, mod_two_pow_succ]
    simp
    ring

/-! ### The decoder loops -/

theorem takeUntilZero_ones_append (j : Nat) (rest : List Char) :
    takeUntilZero (List.replicate j '1' ++ '0' :: rest) = List.replicate j '1' ++ ['0'] := by
  induction j with
  | zero => simp [takeUntilZero]
  | succ j ih =>
    rw [List.replicate_succ, List.cons_append, takeUntilZero, if_neg (by decide), ih]
    simp

theorem takeUntilZero_ones (j : Nat) :
    takeUntilZero (List.replicate j '1') = List.replicate j '1' := by
  induction j with
  | zero => rfl
  | succ j ih =>
    rw [List.replicate_succ, takeUntilZero, if_neg (by decide), ih]

theorem takeUntilZero_mem : ∀ (s : List Char), ∀ c ∈ takeUntilZero s, c ∈ s := by
  intro s
  induction s with
  | nil => intro c hc; simp [takeUntilZero] at hc
  | cons c' cs ih =>
    intro c hc
    by_cases h : c' = '0'
    · subst h
      rw [takeUntilZero, if_pos rfl] at hc
      simp at hc
      simp [hc]
    · rw [takeUntilZero, if_neg h] at hc
      rcases List.mem_cons.mp hc with h1 | h1
      · simp [h1]
      · exact List.mem_cons_of_mem _ (ih c h1)

/-! ### Characters appearing in the strings -/

theorem bitChar_cases (n : Nat) : bitChar n = '0' ∨ bitChar n = '1' := by
  unfold bitChar
  split <;> simp

theorem natBits_mem (n : Nat) : ∀ c ∈ natBits n, c = '0' ∨ c = '1' := by
  induction n using Nat.strong_induction_on with
  | _ n ih =>
    rcases Nat.eq_zero_or_pos n with h | h
    · subst h
      intro c hc
      simp [natBits, bitsLE] at hc
    · rw [natBits_ne_zero (by omega)]
      intro c hc
      rcases List.mem_cons.mp hc with h1 | h1
      · rw [h1]; exact bitChar_cases n
      · exact ih (n / 2) (Nat.div_lt_self h (by norm_num)) c h1

theorem jsBin_mem (n : Nat) : ∀ c ∈ jsBin n, c = '0' ∨ c = '1' := by
  unfold jsBin
  split
  · intro c hc
    simp at hc
    simp [hc]
  · intro c hc
    exact natBits_mem n c (List.mem_reverse.mp hc)

theorem padLE_mem : ∀ (k v : Nat), ∀ c ∈ padLE k v, c = '0' ∨ c = '1' := by
  intro k
  induction k with
  | zero => intro v c hc; simp [padLE] at hc
  | succ k ih =>
    intro v c hc
    rw [padLE] at hc
    rcases List.mem_cons.mp hc with h1 | h1
    · rw [h1]; exact bitChar_cases v
    · exact ih (v / 2) c h1

theorem padBE_mem (k v : Nat) : ∀ c ∈ padBE k v, c = '0' ∨ c = '1' := by
  intro c hc
  exact padLE_mem k v c (List.mem_reverse.mp hc)

/-! ### parseInt -/

theorem parseIntBin_bits {s : List Char} (h : ∀ c ∈ s, c = '0' ∨ c = '1') :
    parseIntBin s = (bitsVal s : Int) := by
  cases s with
  | nil => rfl
  | cons c cs =>
    have hc : c ≠ '-' := by
      rcases h c (by simp) with h1 | h1 <;> subst h1 <;> decide
    rw [parseIntBin, if_neg hc]

theorem parseIntBin_nonneg {s : List Char} (h : ∀ c ∈ s, c = '0' ∨ c = '1') :
    0 ≤ parseIntBin s := by
  rw [parseIntBin_bits h]
  exact Int.ofNat_nonneg _

/-! ### 32-bit operator lemmas (no-overflow range) -/

theorem toUint32_coe {n : Nat} (h : n < 2 ^ 32) : toUint32 (n : Int) = n := by
  unfold toUint32
  rw [Int.emod_eq_of_lt (Int.ofNat_nonneg n) (by exact_mod_cast h)]
  simp

theorem toInt32_coe {n : Nat} (h : n < 2 ^ 31) : toInt32 (n : Int) = n := by
  unfold toInt32
  rw [toUint32_coe (lt_trans h (by norm_num))]
  rw [if_pos h]

theorem jsShl_coe (a s : Nat) (hs : s < 32) (h : a * 2 ^ s < 2 ^ 31) :
    jsShl (a : Int) (s : Int) = ((a * 2 ^ s : Nat) : Int) := by
  have ha : a < 2 ^ 31 := by
    have h1 : (1:Nat) ≤ 2 ^ s := Nat.one_le_two_pow
    have : a * 1 ≤ a * 2 ^ s := Nat.mul_le_mul_left a h1
    omega
  unfold jsShl
  rw [toUint32_coe (lt_trans hs (by norm_num)), Nat.mod_eq_of_lt hs, toInt32_coe ha,
    show ((a : Int) * 2 ^ s) = ((a * 2 ^ s : Nat) : Int) by push_cast; ring,
    toInt32_coe h]

theorem jsOr_coe (a b : Nat) (ha : a < 2 ^ 32) (hb : b < 2 ^ 32) (hor : a ||| b < 2 ^ 31) :
    jsOr (a : Int) (b : Int) = ((a ||| b : Nat) : Int) := by
  unfold jsOr
  rw [toUint32_coe ha, toUint32_coe hb, toInt32_coe hor]

theorem jsBinI_coe (x : Nat) : jsBinI (x : Int) = jsBin x := by
  unfold jsBinI
  rw [if_neg (Int.not_lt.mpr (Int.ofNat_nonneg x))]
  simp

/-! ### The encoder's closed form in the no-overflow range -/

theorem rle_encode_eq (k v : Nat) (hk1 : 1 ≤ k) (hk : k ≤ 15) (hv : v < 2 ^ k) :
    rle_encode ((2 ^ k + v - 1 : Nat) : Int) = (((2 ^ k - 2) * 2 ^ k + v : Nat) : Int) := by
  have h2k : (2:Nat) ≤ 2 ^ k := by
    calc (2:Nat) = 2 ^ 1 := by norm_num
      _ ≤ 2 ^ k := Nat.pow_le_pow_right (by norm_num) hk1
  have h15 : (2:Nat) ^ k ≤ 32768 := by
    calc (2:Nat) ^ k ≤ 2 ^ 15 := Nat.pow_le_pow_right (by norm_num) hk
      _ = 32768 := by norm_num
  have hprod : (2 ^ k - 2) * 2 ^ k ≤ 32768 * 32768 :=
    Nat.mul_le_mul (le_trans (Nat.sub_le _ _) h15) h15
  have hshl_bound : (2 ^ k - 2) * 2 ^ k < 2 ^ 31 := by omega
  have hor_eq : ((2 ^ k - 2) * 2 ^ k : Nat) ||| v = (2 ^ k - 2) * 2 ^ k + v := by
    rw [Nat.mul_comm (2 ^ k - 2) (2 ^ k)]
    exact (Nat.mul_add_lt_is_or hv _).symm
  have hx1 : ((2 ^ k + v - 1 : Nat) : Int) + 1 = ((2 ^ k + v : Nat) : Int) := by omega
  have hlen1 : (jsBin (2 ^ k + v)).length = k + 1 := by
    rw [show 2 ^ k + v = 1 * 2 ^ k + v by ring, jsBin_decomp (le_refl 1) k v hv, jsBin_one]
    simp [padBE_length]
  have hv' : ((2 ^ k + v : Nat) : Int) - 2 ^ (k + 1 - 1) = (v : Int) := by
    rw [show k + 1 - 1 = k by omega]
    push_cast
    ring
  have hl' : ((2 ^ k + v : Nat) : Int) - (v : Int) - 2 = ((2 ^ k - 2 : Nat) : Int) := by omega
  have hlen2 : (List.replicate (k - 1) '1' ++ ['0']).length = k := by
    simp
    omega
  simp only [rle_encode]
  rw [hx1, jsBinI_coe, hlen1, hv', hl', jsBinI_coe, jsBin_two_pow_sub_two k hk1, hlen2,
    jsShl_coe (2 ^ k - 2) k (by omega) hshl_bound,
    jsOr_coe _ _ (by omega) (by omega) (by rw [hor_eq]; omega), hor_eq]

/-! ### The decoder on a well-formed codeword followed by arbitrary trailing bits -/

theorem rle_decode_eq (k v j w : Nat) (hk : 2 ≤ k) (hv : v < 2 ^ k) (hw : w < 2 ^ j) :
    rle_decode ((((2 ^ k - 2) * 2 ^ k + v) * 2 ^ j + w : Nat) : Int)
      = ((2 ^ k + v - 1 : Nat) : Int) := by
  have h4 : (4:Nat) ≤ 2 ^ k := by
    calc (4:Nat) = 2 ^ 2 := by norm_num
      _ ≤ 2 ^ k := Nat.pow_le_pow_right (by norm_num) hk
  have ha : 1 ≤ 2 ^ k - 2 := by omega
  have h2j : (1:Nat) ≤ 2 ^ j := Nat.one_le_two_pow
  have hvw : v * 2 ^ j + w < 2 ^ (k + j) := by
    calc v * 2 ^ j + w < v * 2 ^ j + 2 ^ j := Nat.add_lt_add_left hw _
      _ = (v + 1) * 2 ^ j := by ring
      _ ≤ 2 ^ k * 2 ^ j := Nat.mul_le_mul_right _ hv
      _ = 2 ^ (k + j) := (pow_add 2 k j).symm
  have hm : (((2 ^ k - 2) * 2 ^ k + v) * 2 ^ j + w : Nat)
      = (2 ^ k - 2) * 2 ^ (k + j) + (v * 2 ^ j + w) := by
    rw [pow_add]
    ring
  have hstr : jsBin ((((2 ^ k - 2) * 2 ^ k + v) * 2 ^ j + w : Nat))
      = List.replicate (k - 1) '1' ++ ('0' :: (padBE k v ++ padBE j w)) := by
    rw [hm, jsBin_decomp ha (k + j) (v * 2 ^ j + w) hvw, jsBin_two_pow_sub_two k (by omega),
      padBE_split k j v w hw, List.append_assoc, List.singleton_append]
  have hlenl : (List.replicate (k - 1) '1' ++ ['0']).length = k := by
    simp
    omega
  have hnn : padBE k v ≠ [] := by
    intro h
    have := padBE_length k v
    rw [h] at this
    simp at this
    omega
  have hps : (2:Nat) ^ k = 2 * 2 ^ (k - 1) := by
    conv_lhs => rw [show k = (k - 1) + 1 by omega]
    ring
  have hlmem : ∀ c ∈ List.replicate (k - 1) '1' ++ ['0'], c = '0' ∨ c = '1' := by
    intro c hc
    rcases List.mem_append.mp hc with h | h
    · right
      exact List.eq_of_mem_replicate h
    · left
      simpa using h
  have hvall : bitsVal (List.replicate (k - 1) '1' ++ ['0']) = 2 ^ k - 2 := by
    rw [bitsVal_append, bitsVal_replicate_one]
    have h1 : (1:Nat) ≤ 2 ^ (k - 1) := Nat.one_le_two_pow
    simp [bitsVal]
    omega
  have hdrop : (List.replicate (k - 1) '1' ++ ('0' :: (padBE k v ++ padBE j w))).drop k
      = padBE k v ++ padBE j w := by
    rw [← List.singleton_append, ← List.append_assoc]
    exact List.drop_left' hlenl
  simp only [rle_decode]
  rw [jsBinI_coe, hstr, takeUntilZero_ones_append, hlenl, hdrop,
    List.take_left' (padBE_length k v), if_neg hnn,
    parseIntBin_bits hlmem, parseIntBin_bits (padBE_mem k v), hvall, bitsVal_padBE,
    Nat.mod_eq_of_lt hv]
  omega

/-! ### Decomposition of an encoder argument into exponent and residue -/

theorem log2_decomp (n : Nat) (h1 : 1 ≤ n) (h2 : n ≤ 65534) :
    1 ≤ Nat.log2 (n + 1) ∧ Nat.log2 (n + 1) ≤ 15
      ∧ n + 1 - 2 ^ Nat.log2 (n + 1) < 2 ^ Nat.log2 (n + 1)
      ∧ n = 2 ^ Nat.log2 (n + 1) + (n + 1 - 2 ^ Nat.log2 (n + 1)) - 1 := by
  have hx0 : n + 1 ≠ 0 := by omega
  have hle : 2 ^ Nat.log2 (n + 1) ≤ n + 1 := Nat.log2_self_le hx0
  have hlt : n + 1 < 2 ^ (Nat.log2 (n + 1) + 1) := Nat.lt_log2_self
  have hp : (2:Nat) ^ (Nat.log2 (n + 1) + 1) = 2 * 2 ^ Nat.log2 (n + 1) := by ring
  refine ⟨?_, ?_, by omega, by omega⟩
  · by_contra h
    have h0 : Nat.log2 (n + 1) = 0 := by omega
    rw [h0] at hlt
    norm_num at hlt
    omega
  · by_contra h
    have h16 : (2:Nat) ^ 16 ≤ 2 ^ Nat.log2 (n + 1) :=
      Nat.pow_le_pow_right (by norm_num) (by omega)
    have : (65536:Nat) ≤ n + 1 := le_trans (by norm_num) (le_trans h16 hle)
    omega

theorem decomp_kv (n : Nat) (h1 : 1 ≤ n) (h2 : n ≤ 65534) :
    ∃ k v, 1 ≤ k ∧ k ≤ 15 ∧ v < 2 ^ k ∧ n = 2 ^ k + v - 1 := by
  obtain ⟨a, b, c, d⟩ := log2_decomp n h1 h2
  exact ⟨_, _, a, b, c, d⟩

/-! ### Claim theorems -/

/-- Claim C1, counterexample: at n = 65535 (inside the claimed range [1, 100000])
the round-trip fails: the 32-bit `<<` overflows, `rle_encode 65535 = -131072`,
and decoding that yields -1, not 65535. -/
theorem rle_roundtrip_cex : rle_decode (rle_encode (65535 : Int)) ≠ (65535 : Int) := by
  decide

/-- Claim C1 (amended): the round-trip `rle_decode (rle_encode n) = n` holds for
every integer n in [1, 65534] — the largest initial range in which the encoder's
2k-bit codeword stays below 2^31, so the 32-bit `<<` and `|` do not overflow. -/
theorem rle_roundtrip (n : Nat) (h1 : 1 ≤ n) (h2 : n ≤ 65534) :
    rle_decode (rle_encode (n : Int)) = (n : Int) := by
  obtain ⟨k, v, hk1, hk15, hvlt, hn⟩ := decomp_kv n h1 h2
  rcases Nat.lt_or_ge k 2 with hklt | hkge
  · have hk1' : k = 1 := by omega
    subst hk1'
    have hv2 : v < 2 := by norm_num at hvlt; omega
    interval_cases v
    · have hn1 : n = 1 := by norm_num at hn; omega
      subst hn1
      decide
    · have hn2 : n = 2 := by norm_num at hn; omega
      subst hn2
      decide
  · rw [hn, rle_encode_eq k v hk1 hk15 hvlt]
    have h := rle_decode_eq k v 0 0 hkge hvlt (by norm_num)
    simpa using h

/-- Witness for C1's amended theorem at n = 45. -/
theorem rle_roundtrip_witness :
    rle_decode (rle_encode ((45 : Nat) : Int)) = ((45 : Nat) : Int) :=
  rle_roundtrip 45 (by norm_num) (by norm_num)

/-- Claim C2, counterexample: at n = 65535 we have x = 65536, k = 16,
l = 2^16 - 2 = 65534, v = 0, and the reference value l·2^16 + v = 4294836224,
but `rle_encode 65535 = -131072` because the JS `<<` operates on 32 bits. -/
theorem rle_encode_formula_cex :
    rle_encode (65535 : Int)
      ≠ (((2 ^ 16 - 2) * 2 ^ 16 + (65536 - 2 ^ 16) : Nat) : Int) := by
  decide

/-- Claim C2 (amended): for every n in [1, 65534] (so that the 2k-bit result
fits below 2^31 and the 32-bit shift cannot overflow), with x = n + 1,
k = (bit length of x) - 1 = log2 x, v = x - 2^k and l = 2^k - 2,
`rle_encode n = l * 2^k + v`. -/
theorem rle_encode_formula (n : Nat) (h1 : 1 ≤ n) (h2 : n ≤ 65534) :
    rle_encode (n : Int)
      = (((2 ^ Nat.log2 (n + 1) - 2) * 2 ^ Nat.log2 (n + 1)
          + (n + 1 - 2 ^ Nat.log2 (n + 1)) : Nat) : Int) := by
  obtain ⟨hk1, hk15, hvlt, hn⟩ := log2_decomp n h1 h2
  conv_lhs => rw [hn]
  exact rle_encode_eq _ _ hk1 hk15 hvlt

/-- Witness for C2's amended theorem at n = 45 (k = 5, v = 14, l = 30). -/
theorem rle_encode_formula_witness :
    rle_encode ((45 : Nat) : Int)
      = (((2 ^ Nat.log2 (45 + 1) - 2) * 2 ^ Nat.log2 (45 + 1)
          + (45 + 1 - 2 ^ Nat.log2 (45 + 1)) : Nat) : Int) :=
  rle_encode_formula 45 (by norm_num) (by norm_num)

/-- Claim C3: whenever the binary representation of the decoder's input is
j ones, then a '0', then at least j + 1 further digits, `rle_decode` returns
value(prefix) + value(residual) + 1, where prefix is the j + 1 consumed digits
and residual is exactly the next j + 1 digits. -/
theorem rle_decode_formula (m j : Nat) (rest : List Char)
    (hbin : jsBin m = List.replicate j '1' ++ '0' :: rest)
    (hlen : j + 1 ≤ rest.length) :
    rle_decode (m : Int)
      = (bitsVal (List.replicate j '1' ++ ['0']) : Int)
        + (bitsVal (rest.take (j + 1)) : Int) + 1 := by
  have hrmem : ∀ c ∈ rest.take (j + 1), c = '0' ∨ c = '1' := by
    intro c hc
    apply jsBin_mem m
    rw [hbin]
    exact List.mem_append_right _ (List.mem_cons_of_mem _ (List.mem_of_mem_take hc))
  have hlmem : ∀ c ∈ List.replicate j '1' ++ ['0'], c = '0' ∨ c = '1' := by
    intro c hc
    rcases List.mem_append.mp hc with h | h
    · right
      exact List.eq_of_mem_replicate h
    · left
      simpa using h
  have hlenl : (List.replicate j '1' ++ ['0']).length = j + 1 := by simp
  have hdrop : (List.replicate j '1' ++ ('0' :: rest)).drop (j + 1) = rest := by
    rw [← List.singleton_append, ← List.append_assoc]
    exact List.drop_left' hlenl
  have hne : rest.take (j + 1) ≠ [] := by
    have hl : (rest.take (j + 1)).length = j + 1 := by
      rw [List.length_take]
      omega
    intro h
    rw [h] at hl
    simp at hl
  simp only [rle_decode]
  rw [jsBinI_coe, hbin, takeUntilZero_ones_append, hlenl, hdrop, if_neg hne,
    parseIntBin_bits hlmem, parseIntBin_bits hrmem]

/-- Witness for C3 at input 974 = 0b1111001110 (j = 4, residual "01110"). -/
theorem rle_decode_formula_witness :
    rle_decode ((974 : Nat) : Int)
      = (bitsVal (List.replicate 4 '1' ++ ['0']) : Int)
        + (bitsVal ((['0', '1', '1', '1', '0'] : List Char).take (4 + 1)) : Int) + 1 :=
  rle_decode_formula 974 4 ['0', '1', '1', '1', '0'] (by decide) (by decide)

/-- Claim C4: the known vectors hold — encode(1) = 0b00, encode(2) = 0b01,
encode(45) = 0b1111001110, encode(63282) = 0b111111111111110111011100110011,
and decoding the two-zero-bit codeword yields 1. -/
theorem rle_known_vectors :
    rle_encode 1 = 0b00 ∧ rle_encode 2 = 0b01 ∧ rle_encode 45 = 0b1111001110
      ∧ rle_encode 63282 = 0b111111111111110111011100110011
      ∧ rle_decode 0b00 = 1 := by
  decide

/-- Claim C5, counterexample: appending a trailing 0 bit to the 2-bit codeword
"01" of n = 2 gives the bit string "010", i.e. the number 2, and
`rle_decode 2 = 3`, not 2: leading zeros of the codeword are lost when the
bit string is reinterpreted as a number, so the claim fails for n = 2. -/
theorem rle_decode_trailing_cex :
    rle_decode (rle_encode (2 : Int) * 2 ^ 1 + 0) ≠ (2 : Int) := by
  decide

/-- Claim C5 (amended): trailing bits do not affect the decoded value for every
n in [3, 65534] — those n whose codeword starts with a 1 bit, so that no
leading zeros are lost — and every trailing bit string t (value w < 2^j):
decoding codeword·2^j + w still yields n. -/
theorem rle_decode_trailing (n j w : Nat) (h3 : 3 ≤ n) (h2 : n ≤ 65534)
    (hw : w < 2 ^ j) :
    rle_decode (rle_encode (n : Int) * 2 ^ j + (w : Int)) = (n : Int) := by
  obtain ⟨k, v, hk1, hk15, hvlt, hn⟩ := decomp_kv n (by omega) h2
  have hkge : 2 ≤ k := by
    by_contra h
    have hk1' : k = 1 := by omega
    subst hk1'
    norm_num at hvlt hn
    omega
  rw [hn, rle_encode_eq k v hk1 hk15 hvlt]
  have h := rle_decode_eq k v j w hkge hvlt hw
  rw [← h]
  congr 1
  push_cast
  ring

/-- Witness for C5's amended theorem: n = 45, j = 6, w = 63, i.e. decoding
0b1111001110111111 (the codeword of 45 followed by six garbage 1 bits)
yields 45. -/
theorem rle_decode_trailing_witness :
    rle_decode (rle_encode ((45 : Nat) : Int) * 2 ^ 6 + ((63 : Nat) : Int))
      = ((45 : Nat) : Int) :=
  rle_decode_trailing 45 6 63 (by norm_num) (by norm_num) (by norm_num)

/-- Claim C6, counterexample: on the truncated input 0b111 (a unary prefix that
is never terminated by a 0 bit) `rle_decode` does not fail with a
malformed-stream error — it returns the value 8. -/
theorem rle_decode_truncated_cex : rle_decode 0b111 = 8 := by
  decide

/-- Claim C6 (amended): `rle_decode` does not signal any error on truncated
input; when the prefix is never terminated (an all-ones input, 2^j - 1) the
whole input is consumed as prefix, the missing residual defaults to "0", and
the value (2^j - 1) + 0 + 1 = 2^j is returned. -/
theorem rle_decode_truncated (j : Nat) (hj : 1 ≤ j) :
    rle_decode ((2 ^ j - 1 : Nat) : Int) = ((2 ^ j : Nat) : Int) := by
  have h1 : (1:Nat) ≤ 2 ^ j := Nat.one_le_two_pow
  have h2 : (2:Nat) ≤ 2 ^ j := by
    calc (2:Nat) = 2 ^ 1 := by norm_num
      _ ≤ 2 ^ j := Nat.pow_le_pow_right (by norm_num) hj
  have hne : 2 ^ j - 1 ≠ 0 := by omega
  have hones : jsBin (2 ^ j - 1) = List.replicate j '1' := by
    rw [jsBin, if_neg hne, natBits_two_pow_sub_one, List.reverse_replicate]
  have hmem : ∀ c ∈ List.replicate j '1', c = '0' ∨ c = '1' := by
    intro c hc
    right
    exact List.eq_of_mem_replicate hc
  simp only [rle_decode]
  rw [jsBinI_coe, hones, takeUntilZero_ones, List.length_replicate,
    show (List.replicate j '1').drop j = [] from by simp,
    show ([] : List Char).take j = [] from by simp,
    if_pos rfl, parseIntBin_bits hmem, bitsVal_replicate_one,
    show parseIntBin ['0'] = 0 from by decide]
  omega

/-- Witness for C6's amended theorem at j = 4: decoding 0b1111 yields 16. -/
theorem rle_decode_truncated_witness :
    rle_decode ((2 ^ 4 - 1 : Nat) : Int) = ((2 ^ 4 : Nat) : Int) :=
  rle_decode_truncated 4 (by norm_num)

/-- Claim C7: evaluation at a concrete, well-formed compressed plane — the
source's `decompress_bp` performs no decompression and produces no output
(the JS function returns `undefined`), contradicting the spec's contract that
a sequence of totalPairs pair values is returned. -/
theorem decompress_bp_no_output :
    decompress_bp ['0', '1', '0', '0', '1', '1', '0', '1'] = none := rfl

/-- Claim C8: for every header byte whose height nibble (top) or width nibble
(bottom) is 0 or greater than 7, the dimension read fails with
`InvalidDimensions` and returns no dimensions. -/
theorem readDimensions_invalid (b : Nat)
    (h : b / 16 % 16 = 0 ∨ 7 < b / 16 % 16 ∨ b % 16 = 0 ∨ 7 < b % 16) :
    readDimensions b = Except.error SpriteDecodeError.InvalidDimensions := by
  have hcon : ¬(1 ≤ b / 16 % 16 ∧ b / 16 % 16 ≤ 7 ∧ 1 ≤ b % 16 ∧ b % 16 ≤ 7) := by
    omega
  simp only [readDimensions]
  rw [if_neg hcon]

/-- Witness for C8 at the header byte 0x88 = 136 (height nibble 8 > 7). -/
theorem readDimensions_invalid_witness :
    readDimensions 136 = Except.error SpriteDecodeError.InvalidDimensions :=
  readDimensions_invalid 136 (by decide)

/-- Claim C9: `rle_decode` is total on non-negative inputs and always returns
a value that is at least 1 (both parsed pieces are non-negative, missing
residual bits silently default to "0", and 1 is added). -/
theorem rle_decode_total (m : Int) (hm : 0 ≤ m) : 1 ≤ rle_decode m := by
  have hbin : jsBinI m = jsBin m.toNat := by
    unfold jsBinI
    rw [if_neg (Int.not_lt.mpr hm)]
  have hmem := jsBin_mem m.toNat
  simp only [rle_decode]
  rw [hbin]
  have h1 : 0 ≤ parseIntBin (takeUntilZero (jsBin m.toNat)) :=
    parseIntBin_nonneg (fun c hc => hmem c (takeUntilZero_mem _ c hc))
  set B := ((jsBin m.toNat).drop (takeUntilZero (jsBin m.toNat)).length).take
      (takeUntilZero (jsBin m.toNat)).length with hB
  have h2 : 0 ≤ parseIntBin (if B = [] then ['0'] else B) := by
    split
    · decide
    · apply parseIntBin_nonneg
      intro c hc
      rw [hB] at hc
      exact hmem c (List.mem_of_mem_drop (List.mem_of_mem_take hc))
  omega

/-- Witness for C9 at m = 63 (an all-ones input): the result is at least 1. -/
theorem rle_decode_total_witness : 1 ≤ rle_decode (63 : Int) :=
  rle_decode_total 63 (by decide)

/-- Claim C10: `decompress_bp` returns `undefined` (modelled `none`) for every
input string — its loop body is empty and it has no return statement, so no
bitplane decompression is performed. -/
theorem decompress_bp_none (bitplane : List Char) : decompress_bp bitplane = none := rfl
